import Mathlib

namespace NotesLab

/-!
Verification development for the noteslab drawing engine.

The definitions below are shallow embeddings of the TypeScript sources:

* `src/components/InfiniteCanvas/InfiniteCanvas.tsx` (the feature-complete
  variant: `useCanvasGestures` with `onDrawStart` / `onDrawMove` / `onErase`
  / `zoomIn` / `zoomOut` and the pinch handler),
* `src/components/InfiniteCanvas.tsx` (the variant whose `panResponder`
  commits strokes on release),
* `src/components/AdvancedDrawingCanvas.tsx` (`simplifyPoints`,
  `createSmoothPath`),
* the `NotesContext` `loadNotes` normalisation in `src/unnamed/part_000`.

JavaScript numbers are modelled by `ℚ` (exact arithmetic; the floating
point rounding of the engine is not load-bearing for any claim below),
JavaScript strings by `List Char`, and the stateful React handlers by
explicit state-passing step functions.  `Math.hypot`/`Math.sqrt`
comparisons against a bound are modelled by their exact square
characterisations; bridging lemmas relate these Booleans to `Real.sqrt`.
-/

/-! ## Decimal digits: `Number.prototype.toFixed` / `parseFloat` support -/

/-- The character for a decimal digit (`d % 10` guards totality). -/
def digitToChar (d : Nat) : Char :=
  if d = 0 then '0' else if d = 1 then '1' else if d = 2 then '2'
  else if d = 3 then '3' else if d = 4 then '4' else if d = 5 then '5'
  else if d = 6 then '6' else if d = 7 then '7' else if d = 8 then '8'
  else '9'

/-- Numeric value of a digit character. -/
def charVal (c : Char) : Nat := c.toNat - 48

/-- Digit extraction loop, structurally recursive on a fuel bound so all
concrete instances reduce by kernel computation (`fuel > n` always holds
at the call site, so the `0` branch is unreachable). -/
def natDigitsGo (fuel n : Nat) : List Char :=
  match fuel with
  | 0 => []
  | fuel + 1 =>
      if n < 10 then [digitToChar n]
      else natDigitsGo fuel (n / 10) ++ [digitToChar (n % 10)]

/-- The base-10 digit string of a natural number, most significant first
(the integer part of JavaScript number formatting). -/
def natDigits (n : Nat) : List Char := natDigitsGo (n + 1) n

/-- Value of a digit string, most significant first. -/
def natVal (l : List Char) : Nat := l.foldl (fun a c => a * 10 + charVal c) 0

/-! ## `toFixed(1)` and `parseFloat` -/

/-- `Math.round`-style integer of `|q| * 10` (round half away from zero),
the digit payload of `q.toFixed(1)` per the ECMAScript algorithm (which
negates a negative input, formats it, and prepends the sign). -/
def fixed1Nat (q : ℚ) : Nat := (⌊10 * (if q < 0 then -q else q) + 1 / 2⌋).toNat

/-- `q.toFixed(1)`: sign, integer digits, a dot and one fractional digit. -/
def toFixed1 (q : ℚ) : List Char :=
  (if q < 0 then ['-'] else []) ++
    natDigits (fixed1Nat q / 10) ++ '.' :: [digitToChar (fixed1Nat q % 10)]

/-- The rational value `toFixed1` denotes: `q` rounded to one decimal. -/
def round1 (q : ℚ) : ℚ :=
  (if q < 0 then -(fixed1Nat q : ℚ) else (fixed1Nat q : ℚ)) / 10

/-- `parseFloat` on an unsigned decimal prefix: integer digits, then an
optional dot and fractional digits; `none` models `NaN` (no numeric
prefix).  Exponent and special forms never occur in this app's data. -/
def parseUnsigned (l : List Char) : Option ℚ :=
  let ip := l.takeWhile Char.isDigit
  match l.dropWhile Char.isDigit with
  | '.' :: r2 =>
      let fp := r2.takeWhile Char.isDigit
      if ip = [] ∧ fp = [] then none
      else some ((natVal ip : ℚ) + (natVal fp : ℚ) / 10 ^ fp.length)
  | _ => if ip = [] then none else some ((natVal ip : ℚ))

/-- `parseFloat`, with an optional leading minus sign. -/
def jsParseFloat (l : List Char) : Option ℚ :=
  match l with
  | '-' :: rest => (parseUnsigned rest).map (fun x => -x)
  | _ => parseUnsigned l

/-! ## `String.prototype.split` / `String.prototype.replace` -/

/-- `s.split(c)` for a single-character separator, with JavaScript
semantics: an empty string yields `[""]`, separators at the ends yield
empty fields. -/
def splitOnChar (c : Char) : List Char → List (List Char)
  | [] => [[]]
  | a :: rest =>
      let r := splitOnChar c rest
      if a = c then [] :: r else (a :: r.headD []) :: r.tail

/-- `s.replace(c, '')` for a single-character pattern: drop the first
occurrence of `c`, if any. -/
def replaceFirst (c : Char) : List Char → List Char
  | [] => []
  | a :: rest => if a = c then rest else a :: replaceFirst c rest

/-! ## The path descriptor format

`useCanvasGestures.onDrawStart` writes `M<x>,<y>` with `toFixed(1)`
coordinates; `onDrawMove` appends a space and `L<x>,<y>`.  `onErase`
decodes by `d.split(' ')`, then per token `split(',')`, keeps tokens with
exactly two fields, strips the first `M` and the first `L` from the first
field and applies `parseFloat` to both fields. -/

/-- `<x>,<y>` with `toFixed(1)` coordinates. -/
def numPairChars (p : ℚ × ℚ) : List Char := toFixed1 p.1 ++ ',' :: toFixed1 p.2

/-- `M<x>,<y>` as `onDrawStart` writes it. -/
def mCmdChars (p : ℚ × ℚ) : List Char := 'M' :: numPairChars p

/-- `L<x>,<y>` as `onDrawMove` writes it. -/
def lCmdChars (p : ℚ × ℚ) : List Char := 'L' :: numPairChars p

/-- The `L` commands accumulated by repeated `onDrawMove` calls. -/
def buildPathAux : List (ℚ × ℚ) → List Char
  | [] => []
  | q :: rest => ' ' :: lCmdChars q ++ buildPathAux rest

/-- The full descriptor a draw gesture serialises: a move-to at the first
point then a line-to per further point; the empty gesture writes nothing. -/
def buildPath : List (ℚ × ℚ) → List Char
  | [] => []
  | p :: rest => mCmdChars p ++ buildPathAux rest

/-- One decoded token of the eraser: a `split(',')` result with exactly two
fields whose `parseFloat`s are numbers (a `NaN` coordinate never passes the
eraser's distance comparison, so such tokens contribute nothing). -/
def parsePointTok (parts : List (List Char)) : Option (ℚ × ℚ) :=
  if parts.length = 2 then
    match jsParseFloat (replaceFirst 'L' (replaceFirst 'M' (parts.headD []))),
        jsParseFloat (parts.getD 1 []) with
    | some px, some py => some (px, py)
    | _, _ => none
  else none

/-- The point sequence the eraser samples from a path descriptor. -/
def decodePoints (d : List Char) : List (ℚ × ℚ) :=
  ((splitOnChar ' ' d).map (splitOnChar ',')).filterMap parsePointTok

/-! ## Distance comparisons

`Math.hypot(dx, dy) < r` and `Math.sqrt(dx^2 + dy^2) > tol` are modelled
by their exact characterisations over `ℚ` (decidable, so the models stay
executable); the `_iff` lemmas prove the characterisations correct against
`Real.sqrt`. -/

/-- `Math.hypot dx dy < r`, characterised without square roots. -/
def hypotLtB (dx dy r : ℚ) : Bool := decide (dx * dx + dy * dy < r * r ∧ 0 < r)

/-- `Math.sqrt ((cur.x-last.x)^2 + (cur.y-last.y)^2) > tol`, characterised
without square roots. -/
def distGtB (cur last : ℚ × ℚ) (tol : ℚ) : Bool :=
  decide (tol < 0 ∨
    tol * tol < (cur.1 - last.1) * (cur.1 - last.1) + (cur.2 - last.2) * (cur.2 - last.2))

/-! ## The eraser (`useCanvasGestures.onErase`) -/

/-- A persisted path as `DrawPath` stores it.  The `id` template string
`path_<n>_<Date.now()>` is abstracted to its counter component. -/
structure DrawPathM where
  id : Nat
  d : List Char
  color : List Char
  strokeWidth : ℚ
deriving DecidableEq

/-- The eraser's inner loop on one path: some decoded sample point lies
strictly within `rLimit` of the eraser's canvas position. -/
def pathHitB (canvasX canvasY rLimit : ℚ) (d : List Char) : Bool :=
  (decodePoints d).any (fun q => hypotLtB (q.1 - canvasX) (q.2 - canvasY) rLimit)

/-- `onErase` after the screen-to-canvas conversion of the touch point:
keep exactly the paths no sample point of which is hit
(`distance < eraserSize / scale`). -/
def eraseAtCanvas (canvasX canvasY eraserSize scale : ℚ)
    (paths : List DrawPathM) : List DrawPathM :=
  paths.filter (fun p => ! pathHitB canvasX canvasY (eraserSize / scale) p.d)

/-- `onErase (x, y)`: convert the screen touch to canvas space, then filter. -/
def onErase (x y eraserSize scale translateX translateY : ℚ)
    (paths : List DrawPathM) : List DrawPathM :=
  eraseAtCanvas ((x - translateX) / scale) ((y - translateY) / scale) eraserSize scale paths

/-- A path whose single sample point lies at distance exactly
`radius / scale` from the erase point `(0, 0)` below. -/
def eraserBoundaryPath : DrawPathM := ⟨1, buildPath [(1, 0)], [], 2⟩

/-! ## Coordinate transform (`InfiniteCanvas.tsx` `screenToCanvas` /
`canvasToScreen`) -/

/-- The canvas transform state: `scale` and the `translate` offsets. -/
structure CanvasTransform where
  scale : ℚ
  translateX : ℚ
  translateY : ℚ
deriving DecidableEq

/-- `screenToCanvas`: `(screen - translate) / scale` per axis. -/
def screenToCanvas (screenX screenY : ℚ) (t : CanvasTransform) : ℚ × ℚ :=
  ((screenX - t.translateX) / t.scale, (screenY - t.translateY) / t.scale)

/-- `canvasToScreen`: `canvas * scale + translate` per axis. -/
def canvasToScreen (canvasX canvasY : ℚ) (t : CanvasTransform) : ℚ × ℚ :=
  (canvasX * t.scale + t.translateX, canvasY * t.scale + t.translateY)

/-! ## Zoom clamping (`useCanvasGestures`)

The scale arithmetic of the pinch handler runs on JavaScript floats, whose
special values are load-bearing here: `0 / 0` is `NaN`, `x / 0` for
`x ≠ 0` is a signed infinity, and `Math.min` / `Math.max` return `NaN`
whenever an argument is `NaN` — so the `max(0.1, min(·, 10))` clamp does
not contain `NaN`.  `JSNum` models a JS number as a rational, an infinity
or `NaN` (exact rationals stand in for finite doubles; no claim below
depends on rounding).  Touch distances come from `Math.hypot` of screen
coordinates and are always finite and nonnegative, so events and the
`initialDistance` ref carry plain rationals. -/

/-- A JavaScript number: finite, `±Infinity`, or `NaN`. -/
inductive JSNum where
  | finite (q : ℚ)
  | posInf
  | negInf
  | nan
deriving DecidableEq

/-- JS multiplication (IEEE 754): `NaN` propagates, `0 * ±Infinity` is
`NaN`, otherwise sign rules. -/
def jsMul : JSNum → JSNum → JSNum
  | .nan, _ => .nan
  | _, .nan => .nan
  | .finite a, .finite b => .finite (a * b)
  | .finite a, .posInf => if a = 0 then .nan else if 0 < a then .posInf else .negInf
  | .finite a, .negInf => if a = 0 then .nan else if 0 < a then .negInf else .posInf
  | .posInf, .finite b => if b = 0 then .nan else if 0 < b then .posInf else .negInf
  | .negInf, .finite b => if b = 0 then .nan else if 0 < b then .negInf else .posInf
  | .posInf, .posInf => .posInf
  | .posInf, .negInf => .negInf
  | .negInf, .posInf => .negInf
  | .negInf, .negInf => .posInf

/-- JS division (IEEE 754): `0 / 0` is `NaN`, `x / 0` a signed infinity
for finite `x ≠ 0` (the zero divisor is `+0` here: distances are
nonnegative), a finite over an infinity is `0`, infinity over infinity is
`NaN`, and `NaN` propagates. -/
def jsDiv : JSNum → JSNum → JSNum
  | .nan, _ => .nan
  | _, .nan => .nan
  | .finite a, .finite b =>
      if b ≠ 0 then .finite (a / b)
      else if a = 0 then .nan
      else if 0 < a then .posInf else .negInf
  | .finite _, .posInf => .finite 0
  | .finite _, .negInf => .finite 0
  | .posInf, .finite b => if 0 ≤ b then .posInf else .negInf
  | .negInf, .finite b => if 0 ≤ b then .negInf else .posInf
  | .posInf, _ => .nan
  | .negInf, _ => .nan

/-- `Math.min`: `NaN` if an argument is `NaN`. -/
def jsMin : JSNum → JSNum → JSNum
  | .nan, _ => .nan
  | _, .nan => .nan
  | .finite a, .finite b => .finite (min a b)
  | .negInf, _ => .negInf
  | _, .negInf => .negInf
  | .posInf, x => x
  | x, .posInf => x

/-- `Math.max`: `NaN` if an argument is `NaN`. -/
def jsMax : JSNum → JSNum → JSNum
  | .nan, _ => .nan
  | _, .nan => .nan
  | .finite a, .finite b => .finite (max a b)
  | .posInf, _ => .posInf
  | _, .posInf => .posInf
  | .negInf, x => x
  | x, .negInf => x

/-- `zoomIn`: `scale := Math.min(scale * 1.2, 10)`. -/
def zoomIn (s : JSNum) : JSNum := jsMin (jsMul s (JSNum.finite 1.2)) (JSNum.finite 10)

/-- `zoomOut`: `scale := Math.max(scale / 1.2, 0.1)`. -/
def zoomOut (s : JSNum) : JSNum := jsMax (jsDiv s (JSNum.finite 1.2)) (JSNum.finite 0.1)

/-- The zoom-affecting state of `useCanvasGestures`: the live scale and the
refs captured when a pinch starts (`initialDistance` is a `Math.hypot`
result, hence a plain nonnegative number). -/
structure ZoomState where
  scale : JSNum
  lastScale : JSNum
  initialDistance : ℚ
deriving DecidableEq

/-- The zoom-affecting events: a two-touch grant (which records the current
scale and the initial inter-touch distance), a pinch move carrying the new
inter-touch distance, and the two zoom buttons. -/
inductive ZoomEvent where
  | pinchGrant (dist : ℚ)
  | pinchMove (dist : ℚ)
  | zoomInBtn
  | zoomOutBtn
deriving DecidableEq

/-- One zoom event applied to the state, as `onPanResponderGrant`,
`onPanResponderMove` (two-touch branch), `zoomIn` and `zoomOut` update it:
the pinch move sets `scale := Math.max(0.1, Math.min(lastScale *
(newDistance / initialDistance), 10))` in JS float arithmetic. -/
def zoomStep (st : ZoomState) : ZoomEvent → ZoomState
  | .pinchGrant dist => { st with lastScale := st.scale, initialDistance := dist }
  | .pinchMove dist =>
      let newScale :=
        jsMul st.lastScale (jsDiv (JSNum.finite dist) (JSNum.finite st.initialDistance))
      { st with scale := jsMax (JSNum.finite 0.1) (jsMin newScale (JSNum.finite 10)) }
  | .zoomInBtn => { st with scale := zoomIn st.scale }
  | .zoomOutBtn => { st with scale := zoomOut st.scale }

/-- A whole gesture sequence. -/
def runZoom (st : ZoomState) (evs : List ZoomEvent) : ZoomState := evs.foldl zoomStep st

/-! ## Stroke smoothing (`AdvancedDrawingCanvas.tsx`) -/

/-- `simplifyPoints`: length at most 2 returns the input; otherwise start
from `[points[0]]` with `lastPoint = points[0]`, iterate the interior
points `points[1] .. points[length-2]` keeping a point (and advancing
`lastPoint`) iff its distance from the last kept point exceeds the
tolerance, then push the final point.  The loop is a fold carrying
`(simplified, lastPoint)`. -/
def simplifyPoints (points : List (ℚ × ℚ)) (tolerance : ℚ) : List (ℚ × ℚ) :=
  if points.length ≤ 2 then points
  else
    let first := points.headD (0, 0)
    let res := ((points.drop 1).dropLast).foldl
      (fun (st : List (ℚ × ℚ) × (ℚ × ℚ)) current =>
        if distGtB current st.2 tolerance then (st.1 ++ [current], current) else st)
      ([first], first)
    res.1 ++ [points.getLastD (0, 0)]

/-- The greedy keep relation, as the spec words it: an interior point is
kept iff its distance from the last kept point exceeds the tolerance. -/
def greedyKeep (tolerance : ℚ) (last : ℚ × ℚ) : List (ℚ × ℚ) → List (ℚ × ℚ)
  | [] => []
  | c :: rest =>
      if distGtB c last tolerance then c :: greedyKeep tolerance c rest
      else greedyKeep tolerance last rest

/-- `simplifyPoints` re-expressed from the claim's words: first point,
greedily kept interior points, last point. -/
def simplifySpec (points : List (ℚ × ℚ)) (tolerance : ℚ) : List (ℚ × ℚ) :=
  if points.length ≤ 2 then points
  else
    points.headD (0, 0) ::
      (greedyKeep tolerance (points.headD (0, 0)) ((points.drop 1).dropLast) ++
        [points.getLastD (0, 0)])

/-- A Skia path as the sequence of commands issued on it. -/
inductive PathCmd where
  | moveTo (p : ℚ × ℚ)
  | lineTo (p : ℚ × ℚ)
  | cubicTo (c1 c2 p : ℚ × ℚ)
deriving DecidableEq

/-- The cubic segment the `createSmoothPath` loop emits at loop index
`i = j + 1`: `prev = points[i-1]`, `current = points[i]`,
`next = points[i+1]`, control points
`cp1 = current + (next - prev) * tension`,
`cp2 = next - (next - current) * tension`. -/
def catmullSeg (points : List (ℚ × ℚ)) (tension : ℚ) (j : Nat) : PathCmd :=
  let prev := points.getD j (0, 0)
  let current := points.getD (j + 1) (0, 0)
  let next := points.getD (j + 2) (0, 0)
  PathCmd.cubicTo
    (current.1 + (next.1 - prev.1) * tension, current.2 + (next.2 - prev.2) * tension)
    (next.1 - (next.1 - current.1) * tension, next.2 - (next.2 - current.2) * tension)
    next

/-- `createSmoothPath`: fewer than 2 points yields the empty path; exactly
2 a move-to and a line-to; otherwise a move-to followed by one cubic per
interior point (`for i = 1; i < length - 1`). -/
def createSmoothPath (points : List (ℚ × ℚ)) (tension : ℚ) : List PathCmd :=
  if points.length < 2 then []
  else if points.length = 2 then
    [PathCmd.moveTo (points.headD (0, 0)), PathCmd.lineTo (points.getD 1 (0, 0))]
  else
    PathCmd.moveTo (points.headD (0, 0)) ::
      (List.range (points.length - 2)).map (catmullSeg points tension)

/-- The cubic segments by direct recursion on consecutive point triples,
as the claim words them. -/
def catmullSegs (tension : ℚ) : List (ℚ × ℚ) → List PathCmd
  | p :: c :: n :: rest =>
      PathCmd.cubicTo
        (c.1 + (n.1 - p.1) * tension, c.2 + (n.2 - p.2) * tension)
        (n.1 - (n.1 - c.1) * tension, n.2 - (n.2 - c.2) * tension)
        n :: catmullSegs tension (c :: n :: rest)
  | _ => []

/-- `createSmoothPath` re-expressed from the claim's words. -/
def createSmoothSpec (points : List (ℚ × ℚ)) (tension : ℚ) : List PathCmd :=
  match points with
  | [] => []
  | [_] => []
  | [a, b] => [PathCmd.moveTo a, PathCmd.lineTo b]
  | a :: rest => PathCmd.moveTo a :: catmullSegs tension (a :: rest)

/-! ## The `InfiniteCanvas.tsx` gesture state machine (C4, C5)

This variant's `panResponder` is the one that commits strokes: the grant,
move, release and terminate handlers below are translated with explicit
state passing (React state updates read sequentially).  `Math.hypot` of
pinch distances, an irrational real in general, is abstracted as a
parameter `hyp`; no committed-stroke property below depends on it.
`Date.now()` in the path id template is abstracted away: the id keeps the
`pathIdRef` counter component. -/

/-- The tool modes of `currentTool.mode`. -/
inductive ToolMode where
  | draw
  | erase
  | pan
deriving DecidableEq

/-- `currentTool`. -/
structure ToolState where
  color : List Char
  strokeWidth : ℚ
  mode : ToolMode
deriving DecidableEq

/-- The component state and refs of `InfiniteCanvas.tsx`. -/
structure CanvasState where
  currentPath : List Char
  isDrawing : Bool
  scale : ℚ
  translateX : ℚ
  translateY : ℚ
  lastTouchX : ℚ
  lastTouchY : ℚ
  isPanning : Bool
  isZooming : Bool
  lastScale : ℚ
  lastTranslateX : ℚ
  lastTranslateY : ℚ
  initialDistance : ℚ
  zoomCenterX : ℚ
  zoomCenterY : ℚ
  pathIdRef : Nat
  paths : List DrawPathM
deriving DecidableEq

/-- The touch events the responder receives; each carries the active
touch points' screen coordinates. -/
inductive TouchEvent where
  | grant (touches : List (ℚ × ℚ))
  | move (touches : List (ℚ × ℚ))
  | release
  | terminate
deriving DecidableEq

/-- `screenToCanvas` against the live state. -/
def stateToCanvas (st : CanvasState) (x y : ℚ) : ℚ × ℚ :=
  ((x - st.translateX) / st.scale, (y - st.translateY) / st.scale)

/-- `onPanResponderGrant`. -/
def canvasGrant (hyp : ℚ → ℚ → ℚ) (tool : ToolState) (st : CanvasState)
    (touches : List (ℚ × ℚ)) : CanvasState :=
  match touches with
  | [t] =>
      let st1 := { st with lastTouchX := t.1, lastTouchY := t.2 }
      match tool.mode with
      | .draw =>
          { st1 with
            isDrawing := true
            currentPath := mCmdChars (stateToCanvas st1 t.1 t.2) }
      | .pan =>
          { st1 with
            isPanning := true
            lastTranslateX := st1.translateX
            lastTranslateY := st1.translateY }
      | .erase => st1
  | [a, b] =>
      { st with
        isZooming := true
        initialDistance := hyp (a.1 - b.1) (a.2 - b.2)
        lastScale := st.scale
        zoomCenterX := (a.1 + b.1) / 2
        zoomCenterY := (a.2 + b.2) / 2
        lastTranslateX := st.translateX
        lastTranslateY := st.translateY }
  | _ => st

/-- `onPanResponderMove`.  One touch: extend the stroke while drawing in
draw mode, else pan; two touches: only when `isZooming` was set at grant,
compute the clamped, softened scale and re-anchor the translation at the
recorded zoom centre. -/
def canvasMove (hyp : ℚ → ℚ → ℚ) (tool : ToolState) (st : CanvasState)
    (touches : List (ℚ × ℚ)) : CanvasState :=
  match touches with
  | [t] =>
      if st.isDrawing = true ∧ tool.mode = ToolMode.draw then
        { st with currentPath :=
            if st.currentPath = [] then mCmdChars (stateToCanvas st t.1 t.2)
            else st.currentPath ++ ' ' :: lCmdChars (stateToCanvas st t.1 t.2) }
      else if st.isPanning = true ∨ tool.mode = ToolMode.pan then
        { st with
          translateX := st.lastTranslateX + (t.1 - st.lastTouchX)
          translateY := st.lastTranslateY + (t.2 - st.lastTouchY) }
      else st
  | [a, b] =>
      if st.isZooming = true then
        let newDistance := hyp (a.1 - b.1) (a.2 - b.2)
        let rawScale := st.lastScale * (newDistance / st.initialDistance)
        let clamped := max 0.2 (min 10 rawScale)
        let newScale := st.lastScale + (clamped - st.lastScale) * 0.2
        let canvasCenter := stateToCanvas st st.zoomCenterX st.zoomCenterY
        { st with
          scale := newScale
          translateX := st.zoomCenterX - canvasCenter.1 * newScale
          translateY := st.zoomCenterY - canvasCenter.2 * newScale }
      else st
  | _ => st

/-- `onPanResponderRelease`: commit the stroke when drawing in draw mode
with a nonempty descriptor, then clear the gesture state. -/
def canvasRelease (tool : ToolState) (st : CanvasState) : CanvasState :=
  let st1 :=
    if st.isDrawing = true ∧ tool.mode = ToolMode.draw ∧ st.currentPath ≠ [] then
      { st with
        pathIdRef := st.pathIdRef + 1
        paths := st.paths ++
          [⟨st.pathIdRef + 1, st.currentPath, tool.color, tool.strokeWidth⟩] }
    else st
  { st1 with isDrawing := false, currentPath := [], isPanning := false, isZooming := false }

/-- `onPanResponderTerminate`: discard the in-progress stroke. -/
def canvasTerminate (st : CanvasState) : CanvasState :=
  { st with isDrawing := false, currentPath := [], isPanning := false, isZooming := false }

/-- One event step. -/
def canvasStep (hyp : ℚ → ℚ → ℚ) (tool : ToolState) (st : CanvasState) :
    TouchEvent → CanvasState
  | .grant touches => canvasGrant hyp tool st touches
  | .move touches => canvasMove hyp tool st touches
  | .release => canvasRelease tool st
  | .terminate => canvasTerminate st

/-- A whole gesture: the events in order. -/
def runCanvas (hyp : ℚ → ℚ → ℚ) (tool : ToolState) (st : CanvasState)
    (evs : List TouchEvent) : CanvasState :=
  evs.foldl (canvasStep hyp tool) st

/-- The initial component state: scale 1, translation 0, nothing in
progress, no committed paths. -/
def initialCanvasState : CanvasState :=
  ⟨[], false, 1, 0, 0, 0, 0, false, false, 1, 0, 0, 0, 0, 0, 0, []⟩

/-- A draw tool with empty colour string and width 2. -/
def drawTool : ToolState := ⟨[], 2, ToolMode.draw⟩

/-! ## `loadNotes` path normalisation and the render guard (C9)

`loadNotes` (NotesContext) maps each stored path through a normalisation
of its `d` field — keep non-blank strings, coerce other non-null values
with `String()` unless the result is one of the `[object Object]` /
`null` / `undefined` sentinels — and filters out paths whose normalised
`d` is the empty string.  The render in `InfiniteCanvas.tsx` skips a path
when `!path.d || typeof path.d !== 'string' || path.d.trim() === ''`.
Dynamically typed `d` values are modelled by `JValue` (numbers restricted
to integers, which suffices for every claim below). -/

/-- A JavaScript value as the `d` / `color` / `strokeWidth` fields hold
one. -/
inductive JValue where
  | jstr (s : List Char)
  | jnum (n : Int)
  | jnull
  | jundef
  | jobject
deriving DecidableEq

/-- `typeof v === 'string'`. -/
def isJString : JValue → Bool
  | .jstr _ => true
  | _ => false

/-- The string payload (junk for non-strings, used only under
`isJString`). -/
def jStrVal : JValue → List Char
  | .jstr s => s
  | _ => []

/-- `v == null` (loose): true for `null` and `undefined`. -/
def jsLooseNull : JValue → Bool
  | .jnull => true
  | .jundef => true
  | _ => false

/-- JavaScript whitespace as `trim` strips it (the kinds that occur). -/
def isWsChar (c : Char) : Bool := c = ' ' ∨ c = '\t' ∨ c = '\n' ∨ c = '\r'

/-- `s.trim()`. -/
def jsTrim (s : List Char) : List Char :=
  ((s.dropWhile isWsChar).reverse.dropWhile isWsChar).reverse

/-- `String(n)` for an integer. -/
def intChars (n : Int) : List Char :=
  if n < 0 then '-' :: natDigits n.natAbs else natDigits n.natAbs

def nullChars : List Char := ['n', 'u', 'l', 'l']

def undefinedChars : List Char := ['u', 'n', 'd', 'e', 'f', 'i', 'n', 'e', 'd']

def objectObjectChars : List Char :=
  ['[', 'o', 'b', 'j', 'e', 'c', 't', ' ', 'O', 'b', 'j', 'e', 'c', 't', ']']

/-- `String(v)`. -/
def jsToString : JValue → List Char
  | .jstr s => s
  | .jnum n => intChars n
  | .jnull => nullChars
  | .jundef => undefinedChars
  | .jobject => objectObjectChars

/-- `!v`: the falsy values among the modelled ones. -/
def jsFalsy : JValue → Bool
  | .jstr s => decide (s = [])
  | .jnum n => decide (n = 0)
  | .jnull => true
  | .jundef => true
  | .jobject => false

/-- The `dValue` normalisation of `loadNotes`: a string with non-blank
trim is kept as is; otherwise a non-null value is coerced with `String()`
and kept unless the coercion is one of the three sentinel strings; null
and undefined give the empty string. -/
def normalizeD (d : JValue) : List Char :=
  if isJString d = true ∧ jsTrim (jStrVal d) ≠ [] then jStrVal d
  else if jsLooseNull d = false then
    let sv := jsToString d
    if sv ≠ objectObjectChars ∧ sv ≠ nullChars ∧ sv ≠ undefinedChars then sv else []
  else []

/-- A stored path before normalisation: dynamically typed fields. -/
structure RawPathJ where
  id : Nat
  d : JValue
  color : JValue
  strokeWidth : JValue
deriving DecidableEq

/-- A path after `loadNotes` normalisation. -/
structure LoadedPath where
  id : Nat
  d : List Char
  color : List Char
  strokeWidth : ℚ
deriving DecidableEq

/-- The per-path map of `loadNotes`: normalise `d`, default a non-string
`color` to `#000000` and a non-number `strokeWidth` to `2`. -/
def loadPath (p : RawPathJ) : LoadedPath :=
  { id := p.id
    d := normalizeD p.d
    color := if isJString p.color = true then jStrVal p.color
      else ['#', '0', '0', '0', '0', '0', '0']
    strokeWidth := match p.strokeWidth with
      | .jnum n => (n : ℚ)
      | _ => 2 }

/-- `loadNotes` over a note's path array: map the normalisation, then
filter out paths whose `d` became empty. -/
def loadNotePaths (ps : List RawPathJ) : List LoadedPath :=
  (ps.map loadPath).filter (fun p => decide (p.d ≠ []))

/-- The render guard of `InfiniteCanvas.tsx`:
`!path.d || typeof path.d !== 'string' || path.d.trim() === ''`. -/
def renderSkips (d : JValue) : Bool :=
  jsFalsy d || ! isJString d || decide (jsTrim (jStrVal d) = [])

/-- The raw path of the counterexample: a numeric `d` field. -/
def rawNumPath : RawPathJ := ⟨7, JValue.jnum 42, JValue.jstr ['r'], JValue.jnum 2⟩

/-! ## Theorems -/

theorem digitToChar_isDigit (d : Nat) : (digitToChar d).isDigit := by
  unfold digitToChar
  split_ifs <;> decide

theorem charVal_digitToChar {d : Nat} (h : d < 10) : charVal (digitToChar d) = d := by
  unfold digitToChar charVal
  split_ifs with h0 h1 h2 h3 h4 h5 h6 h7 h8
  · subst h0; decide
  · subst h1; decide
  · subst h2; decide
  · subst h3; decide
  · subst h4; decide
  · subst h5; decide
  · subst h6; decide
  · subst h7; decide
  · subst h8; decide
  · have h9 : d = 9 := by omega
    subst h9; decide

theorem natVal_append_digit (l : List Char) (c : Char) :
    natVal (l ++ [c]) = natVal l * 10 + charVal c := by
  simp [natVal, List.foldl_append]

theorem natDigitsGo_fuel_free :
    ∀ fuel fuel' n : Nat, n < fuel → n < fuel' →
      natDigitsGo fuel n = natDigitsGo fuel' n := by
  intro fuel
  induction fuel with
  | zero => intro fuel' n h h'; omega
  | succ f ih =>
    intro fuel' n h h'
    cases fuel' with
    | zero => omega
    | succ f' =>
      unfold natDigitsGo
      split_ifs with h10
      · rfl
      · rw [ih f' (n / 10) (by omega) (by omega)]

theorem natDigits_step (n : Nat) :
    natDigits n =
      if n < 10 then [digitToChar n]
      else natDigits (n / 10) ++ [digitToChar (n % 10)] := by
  show natDigitsGo (n + 1) n = _
  unfold natDigitsGo
  split_ifs with h10
  · rfl
  · rw [natDigitsGo_fuel_free n (n / 10 + 1) (n / 10) (by omega) (by omega)]
    rfl

theorem natVal_natDigits (n : Nat) : natVal (natDigits n) = n := by
  induction n using Nat.strong_induction_on with
  | _ n ih =>
    rw [natDigits_step]
    split_ifs with h
    · simp [natVal, charVal_digitToChar h]
    · rw [natVal_append_digit, ih (n / 10) (Nat.div_lt_self (by omega) (by omega)),
        charVal_digitToChar (Nat.mod_lt _ (by omega))]
      omega

theorem natDigits_all_digit (n : Nat) : ∀ c ∈ natDigits n, c.isDigit := by
  induction n using Nat.strong_induction_on with
  | _ n ih =>
    rw [natDigits_step]
    split_ifs with h
    · intro c hc
      simp at hc
      subst hc
      exact digitToChar_isDigit n
    · intro c hc
      rcases List.mem_append.1 hc with hc | hc
      · exact ih (n / 10) (Nat.div_lt_self (by omega) (by omega)) c hc
      · simp at hc
        subst hc
        exact digitToChar_isDigit _

theorem natDigits_ne_nil (n : Nat) : natDigits n ≠ [] := by
  rw [natDigits_step]
  split_ifs <;> simp

/-- A digit character is none of the structural characters of the path
descriptor format. -/
theorem isDigit_ne {c c' : Char} (hd : c.isDigit) (hc' : ¬ c'.isDigit) : c ≠ c' :=
  fun e => hc' (e ▸ hd)

theorem takeWhile_append_all {p : Char → Bool} {l1 : List Char} (l2 : List Char)
    (h : ∀ c ∈ l1, p c) : (l1 ++ l2).takeWhile p = l1 ++ l2.takeWhile p := by
  induction l1 with
  | nil => simp
  | cons a t ih =>
    have pa : p a := h a (by simp)
    simp only [List.cons_append, List.takeWhile_cons, pa, if_true]
    rw [ih (fun c hc => h c (by simp [hc]))]

theorem dropWhile_append_all {p : Char → Bool} {l1 : List Char} (l2 : List Char)
    (h : ∀ c ∈ l1, p c) : (l1 ++ l2).dropWhile p = l2.dropWhile p := by
  induction l1 with
  | nil => simp
  | cons a t ih =>
    have pa : p a := h a (by simp)
    simp only [List.cons_append, List.dropWhile_cons, pa, if_true]
    exact ih (fun c hc => h c (by simp [hc]))

theorem parseUnsigned_digits_dot_digit (m d : Nat) :
    parseUnsigned (natDigits m ++ '.' :: [digitToChar d]) =
      some ((m : ℚ) + (charVal (digitToChar d) : ℚ) / 10) := by
  unfold parseUnsigned
  rw [takeWhile_append_all _ (natDigits_all_digit m),
    dropWhile_append_all _ (natDigits_all_digit m)]
  have hdot : Char.isDigit '.' = false := by decide
  simp only [List.takeWhile_cons, hdot, Bool.false_eq_true, if_false, List.append_nil,
    List.dropWhile_cons, List.takeWhile_nil]
  have hdig : Char.isDigit (digitToChar d) = true := digitToChar_isDigit d
  have hone : natVal [digitToChar d] = charVal (digitToChar d) := by simp [natVal]
  simp [hdig, natDigits_ne_nil m, natVal_natDigits, hone]

theorem jsParseFloat_cons_of_ne {c : Char} (cs : List Char) (h : c ≠ '-') :
    jsParseFloat (c :: cs) = parseUnsigned (c :: cs) := by
  unfold jsParseFloat
  split
  · next heq =>
    rw [List.cons.injEq] at heq
    exact absurd heq.1 h
  · rfl

/-- Parsing a `toFixed(1)` rendering recovers exactly the rounded value. -/
theorem jsParseFloat_toFixed1 (q : ℚ) : jsParseFloat (toFixed1 q) = some (round1 q) := by
  have key : ((fixed1Nat q / 10 : Nat) : ℚ) + ((fixed1Nat q % 10 : Nat) : ℚ) / 10 =
      ((fixed1Nat q : Nat) : ℚ) / 10 := by
    have h10 : (10 : Nat) * (fixed1Nat q / 10) + fixed1Nat q % 10 = fixed1Nat q :=
      Nat.div_add_mod _ 10
    have : (((10 * (fixed1Nat q / 10) + fixed1Nat q % 10 : Nat)) : ℚ) =
        ((fixed1Nat q : Nat) : ℚ) := by rw [h10]
    push_cast at this ⊢
    linarith
  have body : parseUnsigned
      (natDigits (fixed1Nat q / 10) ++ '.' :: [digitToChar (fixed1Nat q % 10)]) =
      some (((fixed1Nat q : Nat) : ℚ) / 10) := by
    rw [parseUnsigned_digits_dot_digit,
      charVal_digitToChar (Nat.mod_lt _ (by omega)), key]
  unfold toFixed1 round1
  by_cases hq : q < 0
  · simp only [hq, if_true, List.singleton_append]
    unfold jsParseFloat
    simp [body, neg_div]
  · simp only [hq, if_false, List.nil_append]
    obtain ⟨c, cs, hcons⟩ := List.exists_cons_of_ne_nil (natDigits_ne_nil (fixed1Nat q / 10))
    have hcdig : c.isDigit := by
      have := natDigits_all_digit (fixed1Nat q / 10) c
      rw [hcons] at this
      exact this (by simp)
    have hcne : c ≠ '-' := isDigit_ne hcdig (by decide)
    rw [hcons, List.cons_append, jsParseFloat_cons_of_ne _ hcne, ← List.cons_append, ← hcons,
      body]

theorem splitOnChar_cons (c a : Char) (l : List Char) :
    splitOnChar c (a :: l) =
      if a = c then [] :: splitOnChar c l
      else (a :: (splitOnChar c l).headD []) :: (splitOnChar c l).tail := rfl

theorem splitOnChar_ne_nil (c : Char) (l : List Char) : splitOnChar c l ≠ [] := by
  cases l with
  | nil => simp [splitOnChar]
  | cons a rest =>
    unfold splitOnChar
    split_ifs <;> simp

theorem splitOnChar_of_not_mem {c : Char} {l : List Char} (h : c ∉ l) :
    splitOnChar c l = [l] := by
  induction l with
  | nil => rfl
  | cons a rest ih =>
    have hac : ¬ a = c := fun e => h (by simp [e])
    have hrest : c ∉ rest := fun hm => h (by simp [hm])
    unfold splitOnChar
    simp [hac, ih hrest]

theorem splitOnChar_append {c : Char} {t : List Char} (rest : List Char) (h : c ∉ t) :
    splitOnChar c (t ++ c :: rest) = t :: splitOnChar c rest := by
  induction t with
  | nil => simp [splitOnChar_cons]
  | cons a t' ih =>
    have hac : ¬ a = c := fun e => h (by simp [e])
    have ht' : c ∉ t' := fun hm => h (by simp [hm])
    rw [List.cons_append, splitOnChar_cons, if_neg hac, ih ht']
    simp

theorem replaceFirst_cons_self (c : Char) (l : List Char) :
    replaceFirst c (c :: l) = l := by simp [replaceFirst]

theorem replaceFirst_of_not_mem {c : Char} {l : List Char} (h : c ∉ l) :
    replaceFirst c l = l := by
  induction l with
  | nil => rfl
  | cons a rest ih =>
    have hac : ¬ a = c := fun e => h (by simp [e])
    have hrest : c ∉ rest := fun hm => h (by simp [hm])
    simp [replaceFirst, hac, ih hrest]

theorem toFixed1_chars (q : ℚ) : ∀ ch ∈ toFixed1 q, ch = '-' ∨ ch = '.' ∨ ch.isDigit := by
  intro ch hch
  unfold toFixed1 at hch
  rcases List.mem_append.1 hch with h1 | h2
  · rcases List.mem_append.1 h1 with ha | hb
    · left
      by_cases hq : q < 0
      · rw [if_pos hq] at ha
        simpa using ha
      · rw [if_neg hq] at ha
        simp at ha
    · right; right; exact natDigits_all_digit _ ch hb
  · rcases List.mem_cons.1 h2 with h5 | h6
    · right; left; exact h5
    · right; right
      have he : ch = digitToChar (fixed1Nat q % 10) := by simpa using h6
      subst he
      exact digitToChar_isDigit _

theorem toFixed1_not_mem (q : ℚ) :
    ',' ∉ toFixed1 q ∧ ' ' ∉ toFixed1 q ∧ 'M' ∉ toFixed1 q ∧ 'L' ∉ toFixed1 q := by
  have main : ∀ c' : Char, ¬ c'.isDigit → c' ≠ '-' → c' ≠ '.' → c' ∉ toFixed1 q := by
    intro c' hnd hnm hnp hm
    rcases toFixed1_chars q c' hm with h | h | h
    · exact hnm h
    · exact hnp h
    · exact hnd h
  exact ⟨main ',' (by decide) (by decide) (by decide),
    main ' ' (by decide) (by decide) (by decide),
    main 'M' (by decide) (by decide) (by decide),
    main 'L' (by decide) (by decide) (by decide)⟩

theorem splitComma_cmd_pair (cmd : Char) (p : ℚ × ℚ) (hc : cmd ≠ ',') :
    splitOnChar ',' (cmd :: numPairChars p) = [cmd :: toFixed1 p.1, toFixed1 p.2] := by
  have h1 : ',' ∉ cmd :: toFixed1 p.1 := by
    intro hm
    rcases List.mem_cons.1 hm with hm | hm
    · exact hc hm.symm
    · exact (toFixed1_not_mem p.1).1 hm
  have h2 : ',' ∉ toFixed1 p.2 := (toFixed1_not_mem p.2).1
  have : cmd :: numPairChars p = (cmd :: toFixed1 p.1) ++ ',' :: toFixed1 p.2 := by
    simp [numPairChars]
  rw [this, splitOnChar_append _ h1, splitOnChar_of_not_mem h2]

theorem parsePointTok_mCmd (p : ℚ × ℚ) :
    parsePointTok (splitOnChar ',' (mCmdChars p)) = some (round1 p.1, round1 p.2) := by
  rw [mCmdChars, splitComma_cmd_pair 'M' p (by decide)]
  unfold parsePointTok
  have hM : replaceFirst 'M' ('M' :: toFixed1 p.1) = toFixed1 p.1 :=
    replaceFirst_cons_self _ _
  have hL : replaceFirst 'L' (toFixed1 p.1) = toFixed1 p.1 :=
    replaceFirst_of_not_mem (toFixed1_not_mem p.1).2.2.2
  simp [hM, hL, jsParseFloat_toFixed1]

theorem parsePointTok_lCmd (p : ℚ × ℚ) :
    parsePointTok (splitOnChar ',' (lCmdChars p)) = some (round1 p.1, round1 p.2) := by
  rw [lCmdChars, splitComma_cmd_pair 'L' p (by decide)]
  unfold parsePointTok
  have hM : replaceFirst 'M' ('L' :: toFixed1 p.1) = 'L' :: toFixed1 p.1 := by
    have : 'M' ∉ 'L' :: toFixed1 p.1 := by
      intro hm
      rcases List.mem_cons.1 hm with hm | hm
      · exact absurd hm.symm (by decide)
      · exact (toFixed1_not_mem p.1).2.2.1 hm
    exact replaceFirst_of_not_mem this
  have hL : replaceFirst 'L' ('L' :: toFixed1 p.1) = toFixed1 p.1 :=
    replaceFirst_cons_self _ _
  simp [hM, hL, jsParseFloat_toFixed1]

theorem space_not_mem_mCmd (p : ℚ × ℚ) : ' ' ∉ mCmdChars p := by
  intro hm
  rcases List.mem_cons.1 hm with hm | hm
  · exact absurd hm.symm (by decide)
  · rcases List.mem_append.1 hm with hm | hm
    · exact (toFixed1_not_mem p.1).2.1 hm
    · rcases List.mem_cons.1 hm with hm | hm
      · exact absurd hm.symm (by decide)
      · exact (toFixed1_not_mem p.2).2.1 hm

theorem space_not_mem_lCmd (p : ℚ × ℚ) : ' ' ∉ lCmdChars p := by
  intro hm
  rcases List.mem_cons.1 hm with hm | hm
  · exact absurd hm.symm (by decide)
  · rcases List.mem_append.1 hm with hm | hm
    · exact (toFixed1_not_mem p.1).2.1 hm
    · rcases List.mem_cons.1 hm with hm | hm
      · exact absurd hm.symm (by decide)
      · exact (toFixed1_not_mem p.2).2.1 hm

theorem splitSpace_buildPathAux (rest : List (ℚ × ℚ)) :
    ∀ t : List Char, ' ' ∉ t →
      splitOnChar ' ' (t ++ buildPathAux rest) = t :: rest.map lCmdChars := by
  induction rest with
  | nil =>
    intro t ht
    simp [buildPathAux, splitOnChar_of_not_mem ht]
  | cons q rest' ih =>
    intro t ht
    have : t ++ buildPathAux (q :: rest') = t ++ ' ' :: (lCmdChars q ++ buildPathAux rest') := by
      simp [buildPathAux]
    rw [this, splitOnChar_append _ ht, ih (lCmdChars q) (space_not_mem_lCmd q)]
    simp

theorem decodePoints_map (rest : List (ℚ × ℚ)) :
    (rest.map lCmdChars).filterMap (fun t => parsePointTok (splitOnChar ',' t)) =
      rest.map (fun p => (round1 p.1, round1 p.2)) := by
  induction rest with
  | nil => rfl
  | cons q rest' ih =>
    simp [List.filterMap_cons, parsePointTok_lCmd, ih]

theorem hypotLtB_iff (dx dy r : ℚ) :
    hypotLtB dx dy r = true ↔
      Real.sqrt ((dx : ℝ) ^ 2 + (dy : ℝ) ^ 2) < (r : ℝ) := by
  unfold hypotLtB
  rw [decide_eq_true_iff]
  constructor
  · rintro ⟨hsq, hr⟩
    have hrR : (0 : ℝ) < (r : ℝ) := by exact_mod_cast hr
    have h2 : (dx : ℝ) * (dx : ℝ) + (dy : ℝ) * (dy : ℝ) < (r : ℝ) * (r : ℝ) := by
      exact_mod_cast hsq
    rw [Real.sqrt_lt' hrR]
    nlinarith [h2]
  · intro h
    have hrR : (0 : ℝ) < (r : ℝ) := lt_of_le_of_lt (Real.sqrt_nonneg _) h
    rw [Real.sqrt_lt' hrR] at h
    refine ⟨?_, by exact_mod_cast hrR⟩
    have h2 : (dx : ℝ) * (dx : ℝ) + (dy : ℝ) * (dy : ℝ) < (r : ℝ) * (r : ℝ) := by
      nlinarith [h]
    exact_mod_cast h2

theorem distGtB_iff (cur last : ℚ × ℚ) (tol : ℚ) :
    distGtB cur last tol = true ↔
      (tol : ℝ) <
        Real.sqrt (((cur.1 : ℝ) - (last.1 : ℝ)) ^ 2 + ((cur.2 : ℝ) - (last.2 : ℝ)) ^ 2) := by
  unfold distGtB
  rw [decide_eq_true_iff]
  by_cases hneg : tol < 0
  · simp only [hneg, true_or, true_iff]
    exact lt_of_lt_of_le (by exact_mod_cast hneg) (Real.sqrt_nonneg _)
  · have htol : (0 : ℝ) ≤ (tol : ℝ) := by
      have : (0 : ℚ) ≤ tol := le_of_not_lt hneg
      exact_mod_cast this
    rw [Real.lt_sqrt htol]
    constructor
    · rintro (h | h)
      · exact absurd h hneg
      · have h2 : (tol : ℝ) * (tol : ℝ) <
            ((cur.1 : ℝ) - (last.1 : ℝ)) * ((cur.1 : ℝ) - (last.1 : ℝ)) +
              ((cur.2 : ℝ) - (last.2 : ℝ)) * ((cur.2 : ℝ) - (last.2 : ℝ)) := by
          exact_mod_cast h
        nlinarith [h2]
    · intro h
      right
      have h2 : (tol : ℝ) * (tol : ℝ) <
          ((cur.1 : ℝ) - (last.1 : ℝ)) * ((cur.1 : ℝ) - (last.1 : ℝ)) +
            ((cur.2 : ℝ) - (last.2 : ℝ)) * ((cur.2 : ℝ) - (last.2 : ℝ)) := by
        nlinarith [h]
      exact_mod_cast h2

/-! ## Round-trip and erase characterisation helpers -/

/-- Decoding a serialised gesture recovers the written points exactly
(each coordinate as rounded by `toFixed(1)`). -/
theorem decodePoints_buildPath (ps : List (ℚ × ℚ)) :
    decodePoints (buildPath ps) = ps.map (fun p => (round1 p.1, round1 p.2)) := by
  cases ps with
  | nil => rfl
  | cons p rest =>
    unfold decodePoints buildPath
    rw [splitSpace_buildPathAux rest (mCmdChars p) (space_not_mem_mCmd p)]
    simp only [List.map_cons, List.filterMap_cons, parsePointTok_mCmd, List.filterMap_map]
    rw [← List.filterMap_map]
    simp only [Function.comp_def]
    rw [decodePoints_map]

/-- Membership in the erase output: a path survives iff it was present and
no decoded sample point lies strictly within `eraserSize / scale`
(Euclidean distance) of the canvas point. -/
theorem mem_eraseAtCanvas_iff (canvasX canvasY eraserSize scale : ℚ)
    (paths : List DrawPathM) (p : DrawPathM) :
    p ∈ eraseAtCanvas canvasX canvasY eraserSize scale paths ↔
      p ∈ paths ∧ ∀ q ∈ decodePoints p.d,
        ¬ (Real.sqrt (((q.1 : ℝ) - (canvasX : ℝ)) ^ 2 + ((q.2 : ℝ) - (canvasY : ℝ)) ^ 2) <
          (eraserSize : ℝ) / (scale : ℝ)) := by
  unfold eraseAtCanvas pathHitB
  rw [List.mem_filter, Bool.not_eq_true', List.any_eq_false]
  refine and_congr_right fun _ => ?_
  refine forall_congr' fun q => ?_
  refine imp_congr_right fun _ => ?_
  refine not_congr ?_
  rw [hypotLtB_iff]
  have hx : ((q.1 - canvasX : ℚ) : ℝ) = (q.1 : ℝ) - (canvasX : ℝ) := by push_cast; ring
  have hy : ((q.2 - canvasY : ℚ) : ℝ) = (q.2 : ℝ) - (canvasY : ℝ) := by push_cast; ring
  have hr : ((eraserSize / scale : ℚ) : ℝ) = (eraserSize : ℝ) / (scale : ℝ) := by
    push_cast; ring
  rw [hx, hy, hr]

/-! ## Claims C1, C6, C10 -/

/-- C6: for every finite sequence of canvas-space points, parsing the
serialized path descriptor built from it (the string of `M`/`L` commands
with fixed-decimal coordinates, as decoded by the eraser) reconstructs the
same ordered point sequence up to the one-decimal precision of the
serialization (each point is recovered as its `toFixed(1)` rounding). -/
theorem C6_parse_serialize_roundtrip (ps : List (ℚ × ℚ)) :
    decodePoints (buildPath ps) = ps.map (fun p => (round1 p.1, round1 p.2)) :=
  decodePoints_buildPath ps

/-- C1, counterexample: with eraser radius `1`, scale `1` and erase point
`(0, 0)`, the path whose only sample point is `(1, 0)` — distance exactly
`1 = radius / scale`, hence within the radius — is kept, because the code
removes only on `distance < radius / scale` (strict).  The claim's
"removes every path with a sample point within `r/s`" fails here. -/
theorem C1_counterexample :
    eraseAtCanvas 0 0 1 1 [eraserBoundaryPath] = [eraserBoundaryPath] ∧
    ∃ q ∈ decodePoints eraserBoundaryPath.d,
      Real.sqrt (((q.1 : ℝ) - 0) ^ 2 + ((q.2 : ℝ) - 0) ^ 2) ≤ (1 : ℝ) / 1 := by
  have htn : ((10 : ℤ)).toNat = 10 := rfl
  have hdec : decodePoints eraserBoundaryPath.d = [(1, 0)] := by
    show decodePoints (buildPath [(1, 0)]) = [(1, 0)]
    rw [decodePoints_buildPath]
    norm_num [round1, fixed1Nat, htn]
  constructor
  · show List.filter _ _ = _
    have hB : hypotLtB (1 : ℚ) 0 1 = false := by
      unfold hypotLtB
      rw [decide_eq_false_iff_not]
      norm_num
    simp only [List.filter_cons, List.filter_nil, pathHitB, hdec]
    norm_num [hB]
  · refine ⟨(1, 0), by rw [hdec]; simp, ?_⟩
    norm_num

/-- C1, amended: the erase operation keeps a present path iff every decoded
sample point lies at Euclidean distance at least `eraserSize / scale` from
the canvas point — i.e. removal requires a point strictly within the
radius; a point at exactly the radius does not trigger removal. -/
theorem C1_erase_strictly_within (canvasX canvasY eraserSize scale : ℚ)
    (paths : List DrawPathM) (p : DrawPathM)
    (hscale : 0 < scale) (hmem : p ∈ paths) :
    p ∈ eraseAtCanvas canvasX canvasY eraserSize scale paths ↔
      ∀ q ∈ decodePoints p.d,
        ¬ (Real.sqrt (((q.1 : ℝ) - (canvasX : ℝ)) ^ 2 + ((q.2 : ℝ) - (canvasY : ℝ)) ^ 2) <
          (eraserSize : ℝ) / (scale : ℝ)) := by
  rw [mem_eraseAtCanvas_iff]
  simp [hmem]

/-- C1, witness: the amended characterisation applied at the concrete
boundary configuration. -/
theorem C1_erase_strictly_within_witness :
    (0 : ℚ) < 1 ∧ eraserBoundaryPath ∈ [eraserBoundaryPath] ∧
    (eraserBoundaryPath ∈ eraseAtCanvas 0 0 1 1 [eraserBoundaryPath] ↔
      ∀ q ∈ decodePoints eraserBoundaryPath.d,
        ¬ (Real.sqrt (((q.1 : ℝ) - ((0 : ℚ) : ℝ)) ^ 2 + ((q.2 : ℝ) - ((0 : ℚ) : ℝ)) ^ 2) <
          ((1 : ℚ) : ℝ) / ((1 : ℚ) : ℝ))) :=
  ⟨by norm_num, by simp,
    C1_erase_strictly_within 0 0 1 1 [eraserBoundaryPath] eraserBoundaryPath
      (by norm_num) (by simp)⟩

/-- C10: the erase operation's output is a sublist of its input (surviving
path records unchanged, relative order preserved, nothing added), and
erasing twice at the same touch point with the same radius, scale and
translation equals erasing once. -/
theorem C10_erase_sublist_idempotent
    (x y eraserSize scale translateX translateY : ℚ) (paths : List DrawPathM) :
    (onErase x y eraserSize scale translateX translateY paths).Sublist paths ∧
    onErase x y eraserSize scale translateX translateY
        (onErase x y eraserSize scale translateX translateY paths) =
      onErase x y eraserSize scale translateX translateY paths := by
  constructor
  · exact List.filter_sublist _
  · unfold onErase eraseAtCanvas
    rw [List.filter_filter]
    exact List.filter_congr fun a _ => Bool.and_self _

/-- C2: `screenToCanvas` computes `(screen - translate) / scale` per axis,
`canvasToScreen` computes `canvas * scale + translate` per axis, and for
positive scale the round trip is the identity on screen points — exactly,
hence in particular within floating-point tolerance.  Both are pure
functions of their arguments. -/
theorem C2_transform_inverse (screenX screenY canvasX canvasY : ℚ)
    (t : CanvasTransform) (hscale : 0 < t.scale) :
    screenToCanvas screenX screenY t =
      ((screenX - t.translateX) / t.scale, (screenY - t.translateY) / t.scale) ∧
    canvasToScreen canvasX canvasY t =
      (canvasX * t.scale + t.translateX, canvasY * t.scale + t.translateY) ∧
    canvasToScreen (screenToCanvas screenX screenY t).1 (screenToCanvas screenX screenY t).2 t =
      (screenX, screenY) := by
  refine ⟨rfl, rfl, ?_⟩
  unfold screenToCanvas canvasToScreen
  have hne : t.scale ≠ 0 := ne_of_gt hscale
  field_simp

/-- C2, witness: the round trip at scale `2`, translation `(3, -7)`,
screen point `(5, 11)`. -/
theorem C2_transform_inverse_witness :
    (0 : ℚ) < (CanvasTransform.mk 2 3 (-7)).scale ∧
    (screenToCanvas 5 11 (CanvasTransform.mk 2 3 (-7)) =
      ((5 - (CanvasTransform.mk 2 3 (-7)).translateX) / (CanvasTransform.mk 2 3 (-7)).scale,
        (11 - (CanvasTransform.mk 2 3 (-7)).translateY) / (CanvasTransform.mk 2 3 (-7)).scale) ∧
    canvasToScreen 1 (-1) (CanvasTransform.mk 2 3 (-7)) =
      (1 * (CanvasTransform.mk 2 3 (-7)).scale + (CanvasTransform.mk 2 3 (-7)).translateX,
        -1 * (CanvasTransform.mk 2 3 (-7)).scale + (CanvasTransform.mk 2 3 (-7)).translateY) ∧
    canvasToScreen (screenToCanvas 5 11 (CanvasTransform.mk 2 3 (-7))).1
        (screenToCanvas 5 11 (CanvasTransform.mk 2 3 (-7))).2 (CanvasTransform.mk 2 3 (-7)) =
      (5, 11)) :=
  ⟨by norm_num, C2_transform_inverse 5 11 1 (-1) (CanvasTransform.mk 2 3 (-7)) (by norm_num)⟩

theorem jsDiv_finite_of_ne (a b : ℚ) (hb : b ≠ 0) :
    jsDiv (JSNum.finite a) (JSNum.finite b) = JSNum.finite (a / b) := by
  simp [jsDiv, hb]

/-- C3, counterexample: from the in-range scale `1`, a pinch whose grant
records inter-touch distance `0` followed by a move with distance `0`
computes `0 / 0 = NaN`; `Math.min(NaN, 10)` and `Math.max(0.1, NaN)` are
`NaN`, so the clamp does not contain it and the scale leaves `[0.1, 10]`
— the code has no nonzero-initial-distance guard. -/
theorem C3_counterexample :
    (ZoomState.mk (JSNum.finite 1) (JSNum.finite 1) 1).scale = JSNum.finite 1 ∧
    (0.1 : ℚ) ≤ 1 ∧ (1 : ℚ) ≤ 10 ∧
    (runZoom (ZoomState.mk (JSNum.finite 1) (JSNum.finite 1) 1)
      [ZoomEvent.pinchGrant 0, ZoomEvent.pinchMove 0]).scale = JSNum.nan := by
  refine ⟨rfl, by norm_num, by norm_num, ?_⟩
  norm_num [runZoom, zoomStep, jsDiv, jsMul, jsMin, jsMax, List.foldl]

/-- One zoom event preserves the guarded invariant: a finite scale and
recorded scale in `[0.1, 10]` and a nonzero recorded initial distance,
provided a grant event records a nonzero distance. -/
theorem zoomStep_inv (st : ZoomState) (ev : ZoomEvent)
    (hs : ∃ q : ℚ, st.scale = JSNum.finite q ∧ 0.1 ≤ q ∧ q ≤ 10)
    (hl : ∃ q : ℚ, st.lastScale = JSNum.finite q ∧ 0.1 ≤ q ∧ q ≤ 10)
    (hd : st.initialDistance ≠ 0)
    (hev : ∀ d : ℚ, ev = ZoomEvent.pinchGrant d → d ≠ 0) :
    (∃ q : ℚ, (zoomStep st ev).scale = JSNum.finite q ∧ 0.1 ≤ q ∧ q ≤ 10) ∧
    (∃ q : ℚ, (zoomStep st ev).lastScale = JSNum.finite q ∧ 0.1 ≤ q ∧ q ≤ 10) ∧
    (zoomStep st ev).initialDistance ≠ 0 := by
  obtain ⟨qs, hqs, hqs1, hqs2⟩ := hs
  obtain ⟨ql, hql, hql1, hql2⟩ := hl
  cases ev with
  | pinchGrant d =>
    refine ⟨⟨qs, hqs, hqs1, hqs2⟩, ⟨qs, by simp [zoomStep, hqs], hqs1, hqs2⟩, ?_⟩
    simpa [zoomStep] using hev d rfl
  | pinchMove d =>
    refine ⟨?_, ⟨ql, by simpa [zoomStep] using hql, hql1, hql2⟩,
      by simpa [zoomStep] using hd⟩
    refine ⟨max 0.1 (min (ql * (d / st.initialDistance)) 10), ?_,
      le_max_left _ _, max_le (by norm_num) (min_le_right _ _)⟩
    simp [zoomStep, hql, jsDiv_finite_of_ne _ _ hd, jsMul, jsMin, jsMax]
  | zoomInBtn =>
    refine ⟨?_, ⟨ql, by simpa [zoomStep] using hql, hql1, hql2⟩,
      by simpa [zoomStep] using hd⟩
    refine ⟨min (qs * 1.2) 10, ?_, le_min (by nlinarith) (by norm_num), min_le_right _ _⟩
    simp [zoomStep, zoomIn, hqs, jsMul, jsMin]
  | zoomOutBtn =>
    refine ⟨?_, ⟨ql, by simpa [zoomStep] using hql, hql1, hql2⟩,
      by simpa [zoomStep] using hd⟩
    refine ⟨max (qs / 1.2) 0.1, ?_, le_max_right _ _, max_le ?_ (by norm_num)⟩
    · simp [zoomStep, zoomOut, hqs, jsDiv_finite_of_ne _ _ (by norm_num : (1.2 : ℚ) ≠ 0),
        jsMax]
    · rw [div_le_iff₀ (by norm_num)]
      nlinarith

/-- C3, amended: starting from a finite scale in `[0.1, 10]` (with the
recorded pinch scale likewise in range), every sequence of pinch moves and
zoom-in / zoom-out button presses keeps the scale a finite number inside
`[0.1, 10]` — however extreme the distance ratio — provided every pinch
grant records a nonzero initial distance.  Without that guard the
invariant fails: a zero initial distance followed by a zero move distance
sets the scale to `NaN` (see the counterexample), the guard the spec's
error-handling section postulates but the code does not contain. -/
theorem C3_scale_clamped_guarded (st : ZoomState) (evs : List ZoomEvent)
    (hs : ∃ q : ℚ, st.scale = JSNum.finite q ∧ 0.1 ≤ q ∧ q ≤ 10)
    (hl : ∃ q : ℚ, st.lastScale = JSNum.finite q ∧ 0.1 ≤ q ∧ q ≤ 10)
    (hd : st.initialDistance ≠ 0)
    (hg : ∀ d : ℚ, ZoomEvent.pinchGrant d ∈ evs → d ≠ 0) :
    ∃ q : ℚ, (runZoom st evs).scale = JSNum.finite q ∧ 0.1 ≤ q ∧ q ≤ 10 := by
  induction evs generalizing st with
  | nil => exact hs
  | cons ev rest ih =>
    obtain ⟨g1, g2, g3⟩ := zoomStep_inv st ev hs hl hd (fun d hd' => hg d (by simp [hd']))
    exact ih (zoomStep st ev) g1 g2 g3 (fun d hmem => hg d (by simp [hmem]))

/-- C3, witness: the guarded invariant at a concrete extreme pinch
(recorded distance `5`, move distance `1000`) followed by both buttons,
from scale `1`. -/
theorem C3_scale_clamped_guarded_witness :
    (∃ q : ℚ, (ZoomState.mk (JSNum.finite 1) (JSNum.finite 1) 1).scale =
      JSNum.finite q ∧ 0.1 ≤ q ∧ q ≤ 10) ∧
    (∃ q : ℚ, (ZoomState.mk (JSNum.finite 1) (JSNum.finite 1) 1).lastScale =
      JSNum.finite q ∧ 0.1 ≤ q ∧ q ≤ 10) ∧
    (ZoomState.mk (JSNum.finite 1) (JSNum.finite 1) 1).initialDistance ≠ 0 ∧
    (∃ q : ℚ, (runZoom (ZoomState.mk (JSNum.finite 1) (JSNum.finite 1) 1)
        [ZoomEvent.pinchGrant 5, ZoomEvent.pinchMove 1000,
          ZoomEvent.zoomInBtn, ZoomEvent.zoomOutBtn]).scale = JSNum.finite q ∧
      0.1 ≤ q ∧ q ≤ 10) :=
  ⟨⟨1, rfl, by norm_num, by norm_num⟩, ⟨1, rfl, by norm_num, by norm_num⟩, by norm_num,
    C3_scale_clamped_guarded (ZoomState.mk (JSNum.finite 1) (JSNum.finite 1) 1)
      [ZoomEvent.pinchGrant 5, ZoomEvent.pinchMove 1000,
        ZoomEvent.zoomInBtn, ZoomEvent.zoomOutBtn]
      ⟨1, rfl, by norm_num, by norm_num⟩ ⟨1, rfl, by norm_num, by norm_num⟩ (by norm_num)
      (by intro d hmem; simp at hmem; subst hmem; norm_num)⟩

theorem foldl_greedyKeep (tolerance : ℚ) :
    ∀ (l : List (ℚ × ℚ)) (acc : List (ℚ × ℚ)) (last : ℚ × ℚ),
      (l.foldl
        (fun (st : List (ℚ × ℚ) × (ℚ × ℚ)) current =>
          if distGtB current st.2 tolerance then (st.1 ++ [current], current) else st)
        (acc, last)).1 = acc ++ greedyKeep tolerance last l := by
  intro l
  induction l with
  | nil => intro acc last; simp [greedyKeep]
  | cons c rest ih =>
    intro acc last
    simp only [List.foldl_cons, greedyKeep]
    by_cases h : distGtB c last tolerance
    · rw [if_pos h, if_pos h, ih]
      simp
    · rw [if_neg h, if_neg h, ih]

theorem greedyKeep_sublist (tolerance : ℚ) :
    ∀ (l : List (ℚ × ℚ)) (last : ℚ × ℚ), (greedyKeep tolerance last l).Sublist l := by
  intro l
  induction l with
  | nil => intro last; simp [greedyKeep]
  | cons c rest ih =>
    intro last
    unfold greedyKeep
    split_ifs
    · exact (ih c).cons₂ c
    · exact (ih last).cons c

theorem simplifyPoints_eq_spec (points : List (ℚ × ℚ)) (tolerance : ℚ) :
    simplifyPoints points tolerance = simplifySpec points tolerance := by
  unfold simplifyPoints simplifySpec
  split_ifs with h
  · rfl
  · simp only [foldl_greedyKeep]
    simp

theorem simplifySpec_sublist (points : List (ℚ × ℚ)) (tolerance : ℚ) :
    (simplifySpec points tolerance).Sublist points := by
  unfold simplifySpec
  split_ifs with h
  · exact List.Sublist.refl points
  · cases points with
    | nil => simp at h
    | cons a tail =>
      have htail : tail ≠ [] := by
        intro he
        rw [he] at h
        simp at h
      have hsplit : tail = tail.dropLast ++ [tail.getLast htail] :=
        (List.dropLast_append_getLast htail).symm
      have hlastD : (a :: tail).getLastD (0, 0) = tail.getLast htail := by
        rw [List.getLastD_cons, List.getLastD_eq_getLast?, List.getLast?_eq_getLast tail htail]
        rfl
      simp only [List.headD_cons, List.drop_one, List.drop_succ_cons, List.drop_zero, hlastD]
      refine List.Sublist.cons₂ a ?_
      conv_rhs => rw [hsplit]
      exact (greedyKeep_sublist tolerance tail.dropLast a).append (List.Sublist.refl _)

/-- C7: the simplification step returns the input unchanged for at most
two points; for more it returns the subsequence consisting of the first
point, the interior points greedily kept exactly when their Euclidean
distance from the last kept point exceeds the tolerance, and the last
point (both endpoints kept unconditionally).  The `distGtB` conjunct
identifies the kept-test with the Euclidean distance comparison. -/
theorem C7_simplify_greedy (points : List (ℚ × ℚ)) (tolerance : ℚ) :
    (points.length ≤ 2 → simplifyPoints points tolerance = points) ∧
    simplifyPoints points tolerance = simplifySpec points tolerance ∧
    (simplifyPoints points tolerance).Sublist points ∧
    (2 < points.length →
      simplifyPoints points tolerance =
        points.headD (0, 0) ::
          (greedyKeep tolerance (points.headD (0, 0)) ((points.drop 1).dropLast) ++
            [points.getLastD (0, 0)])) ∧
    (∀ cur last : ℚ × ℚ,
      distGtB cur last tolerance = true ↔
        (tolerance : ℝ) <
          Real.sqrt (((cur.1 : ℝ) - (last.1 : ℝ)) ^ 2 + ((cur.2 : ℝ) - (last.2 : ℝ)) ^ 2)) := by
  refine ⟨?_, simplifyPoints_eq_spec points tolerance,
    simplifyPoints_eq_spec points tolerance ▸ simplifySpec_sublist points tolerance,
    ?_, fun cur last => distGtB_iff cur last tolerance⟩
  · intro h
    unfold simplifyPoints
    rw [if_pos h]
  · intro h
    rw [simplifyPoints_eq_spec]
    unfold simplifySpec
    rw [if_neg (by omega)]

theorem catmullSeg_cons_succ (a : ℚ × ℚ) (points : List (ℚ × ℚ)) (tension : ℚ) (j : Nat) :
    catmullSeg (a :: points) tension (j + 1) = catmullSeg points tension j := by
  simp [catmullSeg, List.getD_cons_succ]

theorem range_map_catmullSeg (tension : ℚ) :
    ∀ (rest : List (ℚ × ℚ)) (a b c : ℚ × ℚ),
      (List.range (rest.length + 1)).map (catmullSeg (a :: b :: c :: rest) tension) =
        catmullSegs tension (a :: b :: c :: rest) := by
  intro rest
  induction rest with
  | nil =>
    intro a b c
    simp [catmullSegs, catmullSeg, List.range_succ_eq_map]
  | cons d rest' ih =>
    intro a b c
    have hlen : (d :: rest').length + 1 = (rest'.length + 1) + 1 := by simp
    rw [hlen, List.range_succ_eq_map, List.map_cons, List.map_map]
    have hcomp : (catmullSeg (a :: b :: c :: d :: rest') tension) ∘ Nat.succ =
        catmullSeg (b :: c :: d :: rest') tension := by
      funext j
      exact catmullSeg_cons_succ a (b :: c :: d :: rest') tension j
    rw [hcomp, ih b c d]
    rfl

theorem createSmoothPath_eq_spec (points : List (ℚ × ℚ)) (tension : ℚ) :
    createSmoothPath points tension = createSmoothSpec points tension := by
  match points with
  | [] => rfl
  | [_] => rfl
  | [a, b] => rfl
  | a :: b :: c :: rest =>
    unfold createSmoothPath createSmoothSpec
    have h1 : ¬ (a :: b :: c :: rest).length < 2 := by simp
    have h2 : ¬ (a :: b :: c :: rest).length = 2 := by simp
    rw [if_neg h1, if_neg h2]
    have hlen : (a :: b :: c :: rest).length - 2 = rest.length + 1 := by simp
    rw [hlen, range_map_catmullSeg tension rest a b c]
    rfl

/-- C8: with fewer than 2 simplified points `createSmoothPath` produces no
path commands; with exactly 2 it is a move-to and a straight line-to; with
3 or more it is a move-to at the first point followed by, for each interior
point `Pi` with neighbours `Pi-1` and `Pi+1`, a cubic to `Pi+1` with
control points `cp1 = Pi + (Pi+1 - Pi-1) * tension` and
`cp2 = Pi+1 - (Pi+1 - Pi) * tension` (tension `0.3` at the call site). -/
theorem C8_smooth_path_catmull (points : List (ℚ × ℚ)) (tension : ℚ) :
    createSmoothPath points tension = createSmoothSpec points tension ∧
    (points.length < 2 → createSmoothPath points tension = []) ∧
    (∀ a b : ℚ × ℚ, createSmoothPath [a, b] tension =
      [PathCmd.moveTo a, PathCmd.lineTo b]) ∧
    (∀ a b c : ℚ × ℚ, ∀ rest : List (ℚ × ℚ),
      createSmoothPath (a :: b :: c :: rest) tension =
        PathCmd.moveTo a :: catmullSegs tension (a :: b :: c :: rest)) := by
  refine ⟨createSmoothPath_eq_spec points tension, ?_, ?_, ?_⟩
  · intro h
    unfold createSmoothPath
    rw [if_pos h]
  · intro a b
    rfl
  · intro a b c rest
    rw [createSmoothPath_eq_spec]
    rfl

theorem mCmdChars_ne_nil (p : ℚ × ℚ) : mCmdChars p ≠ [] := by simp [mCmdChars]

/-- C4, counterexample: a touch-down at `(10, 10)` immediately followed by
touch-up, with no move events, in draw mode from the initial state: the
grant writes the single move-to command into `currentPath`, and the release
commits it, so the path list passed to the persistence callback grows — it
is not unchanged, and a descriptor is produced. -/
theorem C4_counterexample :
    (runCanvas (fun _ _ => 0) drawTool initialCanvasState
      [TouchEvent.grant [(10, 10)], TouchEvent.release]).paths ≠
      initialCanvasState.paths := by
  simp [runCanvas, canvasStep, canvasGrant, canvasRelease, drawTool,
    initialCanvasState, stateToCanvas, mCmdChars_ne_nil]

/-- C4, amended: a draw gesture consisting of a touch-down immediately
followed by a touch-up with no intermediate moves commits exactly one
Path: the single-point descriptor `M<x>,<y>` written at the grant (the
release guard only rejects an empty descriptor, and the grant always
writes the move-to command). -/
theorem C4_tap_commits_single_point (hyp : ℚ → ℚ → ℚ) (tool : ToolState)
    (st : CanvasState) (x y : ℚ) (hmode : tool.mode = ToolMode.draw) :
    (runCanvas hyp tool st [TouchEvent.grant [(x, y)], TouchEvent.release]).paths =
      st.paths ++ [⟨st.pathIdRef + 1,
        mCmdChars ((x - st.translateX) / st.scale, (y - st.translateY) / st.scale),
        tool.color, tool.strokeWidth⟩] := by
  simp [runCanvas, canvasStep, canvasGrant, canvasRelease, hmode, stateToCanvas,
    mCmdChars_ne_nil]

/-- C4, witness: the amended statement at the concrete tap of the
counterexample. -/
theorem C4_tap_commits_single_point_witness :
    drawTool.mode = ToolMode.draw ∧
    (runCanvas (fun _ _ => 0) drawTool initialCanvasState
        [TouchEvent.grant [(10, 10)], TouchEvent.release]).paths =
      initialCanvasState.paths ++ [⟨initialCanvasState.pathIdRef + 1,
        mCmdChars ((10 - initialCanvasState.translateX) / initialCanvasState.scale,
          (10 - initialCanvasState.translateY) / initialCanvasState.scale),
        drawTool.color, drawTool.strokeWidth⟩] :=
  ⟨rfl, C4_tap_commits_single_point (fun _ _ => 0) drawTool initialCanvasState 10 10 rfl⟩

/-- C5, counterexample: a draw gesture that begins with one touch at
`(0, 0)`, accumulates a second point at `(5, 0)`, then sees a second
simultaneous touch land (a two-touch move) before release.  The stroke is
not aborted: the release commits it (the final path list is nonempty), and
the gesture never transitions to zoom handling (`isZooming` stays false,
since zoom engages only when two touches are present at grant). -/
theorem C5_counterexample :
    (runCanvas (fun _ _ => 0) drawTool initialCanvasState
      [TouchEvent.grant [(0, 0)], TouchEvent.move [(5, 0)],
        TouchEvent.move [(5, 0), (20, 20)], TouchEvent.release]).paths ≠ [] ∧
    (runCanvas (fun _ _ => 0) drawTool initialCanvasState
      [TouchEvent.grant [(0, 0)], TouchEvent.move [(5, 0)],
        TouchEvent.move [(5, 0), (20, 20)], TouchEvent.release]).isZooming = false := by
  constructor
  · simp [runCanvas, canvasStep, canvasGrant, canvasMove, canvasRelease, drawTool,
      initialCanvasState, stateToCanvas, mCmdChars_ne_nil]
  · simp [runCanvas, canvasStep, canvasGrant, canvasMove, canvasRelease, drawTool,
      initialCanvasState, stateToCanvas, mCmdChars_ne_nil]

/-- C5, amended: when a second touch lands during a single-touch draw
gesture, the two-touch move events are no-ops (zoom handling engages only
when two touches are present at the grant, so `isZooming` is false and the
stroke is neither extended nor aborted), and on release the accumulated
stroke is committed and appended to the path list. -/
theorem C5_second_touch_commits (hyp : ℚ → ℚ → ℚ) (tool : ToolState)
    (st : CanvasState) (t1 t2 a b : ℚ × ℚ)
    (hmode : tool.mode = ToolMode.draw) (hzoom : st.isZooming = false) :
    (∀ s : CanvasState, s.isZooming = false → canvasMove hyp tool s [a, b] = s) ∧
    (runCanvas hyp tool st
        [TouchEvent.grant [t1], TouchEvent.move [t2],
          TouchEvent.move [a, b], TouchEvent.release]).paths =
      st.paths ++ [⟨st.pathIdRef + 1,
        mCmdChars (stateToCanvas st t1.1 t1.2) ++
          ' ' :: lCmdChars (stateToCanvas st t2.1 t2.2),
        tool.color, tool.strokeWidth⟩] := by
  constructor
  · intro s hz
    simp [canvasMove, hz]
  · simp [runCanvas, canvasStep, canvasGrant, canvasMove, canvasRelease, hmode, hzoom,
      stateToCanvas, mCmdChars_ne_nil]

/-- C5, witness: the amended statement at the counterexample's gesture. -/
theorem C5_second_touch_commits_witness :
    drawTool.mode = ToolMode.draw ∧ initialCanvasState.isZooming = false ∧
    ((∀ s : CanvasState, s.isZooming = false →
        canvasMove (fun _ _ => 0) drawTool s [(5, 0), (20, 20)] = s) ∧
    (runCanvas (fun _ _ => 0) drawTool initialCanvasState
        [TouchEvent.grant [(0, 0)], TouchEvent.move [(5, 0)],
          TouchEvent.move [(5, 0), (20, 20)], TouchEvent.release]).paths =
      initialCanvasState.paths ++ [⟨initialCanvasState.pathIdRef + 1,
        mCmdChars (stateToCanvas initialCanvasState 0 0) ++
          ' ' :: lCmdChars (stateToCanvas initialCanvasState 5 0),
        drawTool.color, drawTool.strokeWidth⟩]) :=
  ⟨rfl, rfl,
    C5_second_touch_commits (fun _ _ => 0) drawTool initialCanvasState
      (0, 0) (5, 0) (5, 0) (20, 20) rfl rfl⟩

/-- C9, counterexample: a stored path whose `d` is the number `42` — a
non-string, hence malformed per the claim — is not filtered out by the
load: `String(42)` is `"42"`, which is none of the sentinel strings, so
the path survives with `d = "42"`. -/
theorem C9_counterexample :
    isJString rawNumPath.d = false ∧
    loadNotePaths [rawNumPath] = [⟨7, ['4', '2'], ['r'], 2⟩] := by
  constructor
  · rfl
  · have h42 : natDigits 42 = ['4', '2'] := by
      rw [natDigits_step]
      norm_num
      rw [natDigits_step]
      rfl
    simp only [loadNotePaths, rawNumPath, List.map_cons, List.map_nil, loadPath,
      normalizeD, isJString, jStrVal, jsLooseNull, jsToString, intChars]
    norm_num [h42, objectObjectChars, nullChars, undefinedChars, List.filter]
    decide

theorem jsTrim_nil : jsTrim [] = [] := rfl

theorem jsTrim_ne_nil_of_ne {s : List Char} (h : jsTrim s ≠ []) : s ≠ [] := by
  intro he
  rw [he] at h
  exact h jsTrim_nil

/-- C9, amended: during load every path is normalised and the result list
keeps, in order and otherwise unchanged, exactly the paths whose
normalised `d` is nonempty — every path with a genuinely non-blank string
`d` survives with that `d`, but a non-string `d` is not necessarily
dropped (it is kept whenever its `String()` coercion avoids the three
sentinels, e.g. a number), and load itself never fails; during render a
path is drawn iff its `d` is a string with non-blank trim (falsy,
non-string, and whitespace-only data are skipped). -/
theorem C9_load_filter_render_guard (ps : List RawPathJ) :
    (loadNotePaths ps).Sublist (ps.map loadPath) ∧
    (∀ raw ∈ ps, isJString raw.d = true → jsTrim (jStrVal raw.d) ≠ [] →
      (loadPath raw).d = jStrVal raw.d ∧ loadPath raw ∈ loadNotePaths ps) ∧
    (∀ q ∈ loadNotePaths ps, q.d ≠ []) ∧
    (∀ v : JValue, renderSkips v = false ↔
      (isJString v = true ∧ jsTrim (jStrVal v) ≠ [])) := by
  refine ⟨List.filter_sublist _, ?_, ?_, ?_⟩
  · intro raw hraw hstr htrim
    have hd : (loadPath raw).d = jStrVal raw.d := by
      simp only [loadPath, normalizeD]
      rw [if_pos ⟨hstr, htrim⟩]
    refine ⟨hd, ?_⟩
    rw [loadNotePaths, List.mem_filter]
    refine ⟨List.mem_map_of_mem loadPath hraw, ?_⟩
    rw [hd]
    exact decide_eq_true (jsTrim_ne_nil_of_ne htrim)
  · intro q hq
    rw [loadNotePaths, List.mem_filter] at hq
    exact of_decide_eq_true hq.2
  · intro v
    cases v with
    | jstr s =>
      by_cases hs : s = []
      · subst hs
        simp [renderSkips, jsFalsy, isJString, jStrVal, jsTrim]
      · simp [renderSkips, jsFalsy, isJString, jStrVal, hs]
    | jnum n => simp [renderSkips, jsFalsy, isJString]
    | jnull => simp [renderSkips, jsFalsy, isJString]
    | jundef => simp [renderSkips, jsFalsy, isJString]
    | jobject => simp [renderSkips, jsFalsy, isJString]

end NotesLab
